import Mathlib

/-!
Verification development for the DeepKoopman data-conditioning and
error-metric modules (`deepk/data.py` and `deepk/errors.py`).

Numeric data is modelled over `ℚ` (exact arithmetic in place of torch
floating point).  A state matrix is a `List (List ℚ)` (rows = samples),
a time vector is a `List ℚ`.  Fallible construction is modelled with
`Except`.  Division follows the rational convention `x / 0 = 0` except in
the error metrics, where the IEEE outcomes `inf` and `nan` produced by
torch are modelled explicitly by the type `EVal`.
-/

attribute [local semireducible] Rat.sub Rat.add Rat.mul Rat.inv Rat.ofScientific

/-- The kinds of Python exceptions the modelled code can raise. -/
inductive PyError where
  | assertionError (msg : String)
  | valueError (msg : String)
  | runtimeError (msg : String)
  | indexError (msg : String)
deriving DecidableEq

/-- Modelled from the spec: `utils._shift` subtracts a scalar offset from
every entry of a time vector ("Shifts all time vectors so training starts
at zero"). -/
def shiftL (t : List ℚ) (shift : ℚ) : List ℚ := t.map (fun x => x - shift)

/-- Modelled from the spec: `utils._scale` divides every entry by a scalar
scale factor ("normalized by the maximum absolute value observed in the
training split (a single global scale factor)"). -/
def scaleL (t : List ℚ) (scale : ℚ) : List ℚ := t.map (fun x => x / scale)

/-- Modelled from the spec: `utils._scale` applied to a 2D state matrix. -/
def scaleX (X : List (List ℚ)) (scale : ℚ) : List (List ℚ) :=
  X.map (fun row => row.map (fun x => x / scale))

/-- All entries of a state matrix, in row-major order, with absolute value
applied: the elements reduced by `torch.max(torch.abs(X))`. -/
def absElems (X : List (List ℚ)) : List ℚ := X.flatten.map (fun x => |x|)

/-- `torch.max(torch.abs(X))`: `none` models the `RuntimeError` torch
raises when the tensor has no elements. -/
def maxAbs? (X : List (List ℚ)) : Option ℚ := (absElems X).max?

/-- Consecutive differences `t[i+1] - t[i]` of a time vector
(`data.py` lines 55-57). -/
def diffs (l : List ℚ) : List ℚ := List.zipWith (fun a b => b - a) l l.tail

/-- The keys of a Python dict in insertion order, for a dict built by
iterating over a list and inserting each element on first occurrence
(the iteration order of `self.dts`). -/
def firstOccKeys (l : List ℚ) : List ℚ :=
  l.foldl (fun acc d => if d ∈ acc then acc else acc ++ [d]) []

/-- Python `max(dts, key=dts.get)` over the spacing-frequency dict: iterate
the keys in insertion order and keep the first key of maximal count
(`max` replaces the current best only on a strictly greater key value).
`none` models the `ValueError` raised by `max` on an empty dict. -/
def argmaxByCount (l : List ℚ) : Option ℚ :=
  match firstOccKeys l with
  | [] => none
  | k :: ks => some (ks.foldl (fun best d => if l.count best < l.count d then d else best) k)

/-- The training time vector shifted so that it starts at zero
(`self.ttr` after `utils._shift(self.ttr, shift=self.tshift)`). -/
def shiftedTtr (ttr : List ℚ) : List ℚ := shiftL ttr (ttr.headD 0)

/-- `self.tscale`: the most common difference between consecutive shifted
training time values (`data.py` lines 55-61). -/
def tscaleOf (ttr : List ℚ) : Option ℚ := argmaxByCount (diffs (shiftedTtr ttr))

/-- Floor of a rational, computed by floor division of numerator by
denominator. -/
def floorQ (q : ℚ) : ℤ := q.num.fdiv q.den

/-- `torch.round` rounds half to even. -/
def roundQ (q : ℚ) : ℤ :=
  if q - (floorQ q : ℚ) < 1/2 then floorQ q
  else if 1/2 < q - (floorQ q : ℚ) then floorQ q + 1
  else if floorQ q % 2 = 0 then floorQ q else floorQ q + 1

/-- The stored training time vector: shifted, scaled by `tscale`, then
rounded (`torch.round(self.ttr)` at `data.py` line 67). -/
def ttrStored (ttr : List ℚ) (ts : ℚ) : List ℚ :=
  (scaleL (shiftedTtr ttr) ts).map (fun t => ((roundQ t : ℤ) : ℚ))

/-- The state held by a fully constructed `DataHandler`. -/
structure DataHandler where
  Xtr : List (List ℚ)
  Xva : List (List ℚ)
  Xte : List (List ℚ)
  ttr : List ℚ
  tva : List ℚ
  tte : List ℚ
  Xscale : ℚ
  tshift : ℚ
  tscale : ℚ
deriving DecidableEq

instance {ε α : Type} [DecidableEq ε] [DecidableEq α] : DecidableEq (Except ε α) := fun
  | .ok a, .ok b => decidable_of_iff (a = b) (by simp)
  | .error e, .error f => decidable_of_iff (e = f) (by simp)
  | .ok _, .error _ => isFalse (by simp)
  | .error _, .ok _ => isFalse (by simp)

/-- `DataHandler.__init__` (`data.py` lines 29-69).  The optional splits
`Xva/tva/Xte/tte` default to empty lists (modelled from the spec:
`utils._tensorize` turns `None` into an empty tensor, so that the length
assertions compare against length 0).  The argument `normalize_Xdata` is
the configuration flag `cfg.normalize_Xdata`.  The steps appear in source
order: the three length assertions, `Xscale` from the maximum absolute
training value, optional normalization, the shift making training time
start at zero, the most common spacing `tscale`, scaling of all time
vectors, rounding of the training time vector and the equal-spacing
check. -/
def construct (normalize_Xdata : Bool) (Xtr : List (List ℚ)) (ttr : List ℚ)
    (Xva : List (List ℚ)) (tva : List ℚ) (Xte : List (List ℚ)) (tte : List ℚ) :
    Except PyError DataHandler :=
  if Xtr.length ≠ ttr.length then
    .error (.assertionError "Expected Xtr and ttr to have same length of 1st dimension")
  else if Xva.length ≠ tva.length then
    .error (.assertionError "Expected Xva and tva to have same length of 1st dimension")
  else if Xte.length ≠ tte.length then
    .error (.assertionError "Expected Xte and tte to have same length of 1st dimension")
  else
    match maxAbs? Xtr with
    | none => .error (.runtimeError "max(): Expected reduction dim to be specified for input.numel() == 0")
    | some Xscale =>
      match ttr with
      | [] => .error (.indexError "index 0 is out of bounds for dimension 0 with size 0")
      | t0 :: _ =>
        match tscaleOf ttr with
        | none => .error (.valueError "max() arg is an empty sequence")
        | some tscale =>
          if (diffs (ttrStored ttr tscale)).toFinset = ({1} : Finset ℚ) then
            .ok { Xtr := if normalize_Xdata then scaleX Xtr Xscale else Xtr
                , Xva := if normalize_Xdata then scaleX Xva Xscale else Xva
                , Xte := if normalize_Xdata then scaleX Xte Xscale else Xte
                , ttr := ttrStored ttr tscale
                , tva := scaleL (shiftL tva t0) tscale
                , tte := scaleL (shiftL tte t0) tscale
                , Xscale := Xscale
                , tshift := t0
                , tscale := tscale }
          else
            .error (.valueError "Training indexes are not equally spaced and cannot be rounded to get equal spacing")

/-- The value of one entry of a torch float computation: a finite value,
positive infinity, or NaN.  Only the cases produced by `anae` and `_naae`
are modelled (all infinities arising there are positive). -/
inductive EVal where
  | fin (q : ℚ)
  | inf
  | nan
deriving DecidableEq

/-- The finite value of an `EVal` (defaulting to 0). -/
def finVal : EVal → ℚ
  | .fin q => q
  | _ => 0

/-- One entry of `torch.abs(ref-new)/torch.abs(ref)`: finite when the
reference is nonzero, `inf` for division of a nonzero numerator by zero,
`nan` for `0/0` (IEEE semantics of torch float division). -/
def anaeEntry (r n : ℚ) : EVal :=
  if r = 0 then (if n = 0 then .nan else .inf) else .fin (|r - n| / |r|)

/-- `torch.mean` over a list of entries none of which is negative
infinity: NaN on an empty tensor, NaN if any entry is NaN, infinite if
any entry is (positive) infinite, otherwise the finite average. -/
def meanE (l : List EVal) : EVal :=
  if l.isEmpty then .nan
  else if .nan ∈ l then .nan
  else if .inf ∈ l then .inf
  else .fin ((l.map finVal).sum / l.length)

/-- Multiplication of a torch scalar by the positive constant `100.`:
`100 * inf = inf` and `100 * nan = nan`. -/
def mulE (c : ℚ) : EVal → EVal
  | .fin q => .fin (c * q)
  | .inf => .inf
  | .nan => .nan

/-- `anae` (`errors.py` lines 26-27): the elementwise normalized absolute
errors with the entries equal to `torch.inf` filtered out, averaged, in
percent.  Tensors are modelled as their row-major lists of entries. -/
def anae (ref new : List ℚ) : EVal :=
  mulE 100 (meanE ((List.zipWith anaeEntry ref new).filter (fun e => e ≠ EVal.inf)))

/-- `_naae` (`errors.py` line 46): the mean absolute error in percent,
divided by the mean absolute reference value, with the IEEE outcomes of
the final division modelled explicitly. -/
def _naae (ref new : List ℚ) : EVal :=
  let d := List.zipWith (fun r n => |r - n|) ref new
  if d.isEmpty ∨ ref.isEmpty then .nan
  else
    let m1 := d.sum / d.length
    let m2 := (ref.map (fun r => |r|)).sum / ref.length
    if m2 = 0 then (if 100 * m1 = 0 then .nan else .inf) else .fin (100 * m1 / m2)

/-- Stated from the spec claim for ANAE (for refinement comparison with
`anae`): 100 times the mean of the ratios taken over exactly the
positions with nonzero reference, NaN when there is no such position. -/
def anaeSpecC2 (ref new : List ℚ) : EVal :=
  let nz := (List.zip ref new).filter (fun p => p.1 ≠ 0)
  if nz.isEmpty then .nan
  else .fin (100 * ((nz.map (fun p => |p.1 - p.2| / |p.1|)).sum / nz.length))

/-- Rounding a finite torch scalar to one decimal place; `none` on a
non-finite value. -/
def round1? : EVal → Option ℚ
  | .fin q => some ((roundQ (10 * q) : ℚ) / 10)
  | _ => none

/-- Whether a modelled construction run succeeded. -/
def isOkB : Except PyError DataHandler → Bool
  | .ok _ => true
  | .error _ => false

/-- Whether a modelled construction run ended in an `AssertionError`. -/
def isAssertB : Except PyError DataHandler → Bool
  | .error (.assertionError _) => true
  | _ => false

/-- The maximum absolute entry of the stored training matrix of a
successful construction, `none` on a failed construction or an empty
matrix. -/
def storedXtrMaxAbs? : Except PyError DataHandler → Option ℚ
  | .ok d => maxAbs? d.Xtr
  | .error _ => none

lemma shiftL_length (t : List ℚ) (s : ℚ) : (shiftL t s).length = t.length := by
  simp [shiftL]

lemma scaleL_length (t : List ℚ) (s : ℚ) : (scaleL t s).length = t.length := by
  simp [scaleL]

lemma ttrStored_length (ttr : List ℚ) (ts : ℚ) : (ttrStored ttr ts).length = ttr.length := by
  simp [ttrStored, scaleL, shiftedTtr, shiftL]

lemma roundQ_zero : roundQ 0 = 0 := by decide

lemma ttrStored_cons (t0 : ℚ) (rest : List ℚ) (ts : ℚ) :
    ttrStored (t0 :: rest) ts =
      0 :: rest.map (fun t => ((roundQ ((t - t0) / ts) : ℤ) : ℚ)) := by
  simp only [ttrStored, shiftedTtr, shiftL, scaleL, List.headD_cons, List.map_cons,
    List.map_map, Function.comp_def]
  rw [sub_self, zero_div, roundQ_zero]
  simp

lemma diffs_cons_cons (a b : ℚ) (l : List ℚ) :
    diffs (a :: b :: l) = (b - a) :: diffs (b :: l) := rfl

lemma cons_eq_range_of_diffs_one :
    ∀ (l : List ℚ) (a : ℚ), (∀ x ∈ diffs (a :: l), x = 1) →
      a :: l = (List.range (l.length + 1)).map (fun i : ℕ => a + (i : ℚ)) := by
  intro l
  induction l with
  | nil =>
    intro a _
    norm_num [show List.range 1 = [0] from rfl]
  | cons b l ih =>
    intro a h
    have hb : b - a = 1 := h (b - a) (by rw [diffs_cons_cons]; exact List.mem_cons_self _ _)
    have htail : ∀ x ∈ diffs (b :: l), x = 1 := by
      intro x hx
      exact h x (by rw [diffs_cons_cons]; exact List.mem_cons_of_mem _ hx)
    have hrec := ih b htail
    simp only [List.length_cons]
    rw [List.range_succ_eq_map, List.map_cons, List.map_map]
    have h0 : a + ((0 : ℕ) : ℚ) = a := by norm_num
    rw [h0]
    congr 1
    rw [hrec]
    refine List.map_congr_left ?_
    intro i _
    have hba : b = a + 1 := by linarith
    simp only [Function.comp_def]
    push_cast
    rw [hba]
    ring

lemma construct_ok_inv {nz : Bool} {Xtr Xva Xte : List (List ℚ)} {ttr tva tte : List ℚ}
    {d : DataHandler} (h : construct nz Xtr ttr Xva tva Xte tte = .ok d) :
    ∃ M t0 rest ts,
      Xtr.length = ttr.length ∧ Xva.length = tva.length ∧ Xte.length = tte.length ∧
      maxAbs? Xtr = some M ∧ ttr = t0 :: rest ∧ tscaleOf ttr = some ts ∧
      (diffs (ttrStored ttr ts)).toFinset = ({1} : Finset ℚ) ∧
      d = ⟨if nz then scaleX Xtr M else Xtr,
           if nz then scaleX Xva M else Xva,
           if nz then scaleX Xte M else Xte,
           ttrStored ttr ts,
           scaleL (shiftL tva t0) ts,
           scaleL (shiftL tte t0) ts,
           M, t0, ts⟩ := by
  unfold construct at h
  split at h
  · exact absurd h (by simp)
  split at h
  · exact absurd h (by simp)
  split at h
  · exact absurd h (by simp)
  split at h
  · exact absurd h (by simp)
  rename_i M hM
  split at h
  · exact absurd h (by simp)
  rename_i t0 rest hlen
  split at h
  · exact absurd h (by simp)
  rename_i ts hts
  split at h
  · rename_i hsp
    refine ⟨M, t0, rest, ts, by omega, by omega, by omega, hM, rfl, hts, hsp, ?_⟩
    exact (Except.ok.injEq _ _).mp h.symm
  · exact absurd h (by simp)


lemma construct_ok_intro {nz : Bool} {Xtr Xva Xte : List (List ℚ)} {t0 : ℚ}
    {rest tva tte : List ℚ} {M ts : ℚ}
    (h1 : Xtr.length = (t0 :: rest).length) (h2 : Xva.length = tva.length)
    (h3 : Xte.length = tte.length) (hM : maxAbs? Xtr = some M)
    (hts : tscaleOf (t0 :: rest) = some ts)
    (hsp : (diffs (ttrStored (t0 :: rest) ts)).toFinset = ({1} : Finset ℚ)) :
    construct nz Xtr (t0 :: rest) Xva tva Xte tte =
      .ok ⟨if nz then scaleX Xtr M else Xtr,
           if nz then scaleX Xva M else Xva,
           if nz then scaleX Xte M else Xte,
           ttrStored (t0 :: rest) ts,
           scaleL (shiftL tva t0) ts,
           scaleL (shiftL tte t0) ts,
           M, t0, ts⟩ := by
  unfold construct
  rw [if_neg (by omega), if_neg (by omega), if_neg (by omega)]
  simp only [hM, hts]
  rw [if_pos hsp]

lemma tscaleOf_nil_eq_none : tscaleOf [] = none := by decide

/-- Claim C1: for every input on which `DataHandler` construction
succeeds, the stored training time vector `ttr` is exactly the contiguous
ascending integer sequence `0, 1, ..., n-1`; and whenever construction
reaches the time-processing stage (the three length assertions hold and
the training matrix has an entry, so that `Xscale` and `tscale` are
defined) but after shifting, scaling and rounding some consecutive
difference is not `1`, construction returns the equal-spacing
`ValueError` instead. -/
theorem C1_ttr_contiguous (nz : Bool) (Xtr Xva Xte : List (List ℚ)) (ttr tva tte : List ℚ) :
    (∀ d : DataHandler, construct nz Xtr ttr Xva tva Xte tte = .ok d →
        d.ttr = (List.range ttr.length).map (fun i : ℕ => (i : ℚ)))
    ∧ (Xtr.length = ttr.length → Xva.length = tva.length → Xte.length = tte.length →
        ∀ M, maxAbs? Xtr = some M → ∀ ts, tscaleOf ttr = some ts →
        (∃ x ∈ diffs (ttrStored ttr ts), x ≠ 1) →
        construct nz Xtr ttr Xva tva Xte tte =
          .error (.valueError "Training indexes are not equally spaced and cannot be rounded to get equal spacing")) := by
  constructor
  · intro d h
    obtain ⟨M, t0, rest, ts, h1, h2, h3, hM, hteq, hts, hsp, hd⟩ := construct_ok_inv h
    subst hteq
    subst hd
    show ttrStored (t0 :: rest) ts = (List.range (t0 :: rest).length).map (fun i : ℕ => (i : ℚ))
    have hall : ∀ x ∈ diffs (ttrStored (t0 :: rest) ts), x = 1 := by
      intro x hx
      have hmem : x ∈ (diffs (ttrStored (t0 :: rest) ts)).toFinset := List.mem_toFinset.mpr hx
      rw [hsp] at hmem
      simpa using hmem
    rw [ttrStored_cons] at hall ⊢
    rw [cons_eq_range_of_diffs_one _ 0 hall]
    simp
  · intro h1 h2 h3 M hM ts hts hx
    obtain ⟨x, hx, hx1⟩ := hx
    obtain ⟨t0, rest, rfl⟩ : ∃ t0 rest, ttr = t0 :: rest := by
      cases ttr with
      | nil => exact absurd (tscaleOf_nil_eq_none ▸ hts) (by simp)
      | cons a l => exact ⟨a, l, rfl⟩
    have hne : (diffs (ttrStored (t0 :: rest) ts)).toFinset ≠ ({1} : Finset ℚ) := by
      intro hset
      have hmem : x ∈ ({1} : Finset ℚ) := hset ▸ List.mem_toFinset.mpr hx
      exact hx1 (Finset.mem_singleton.mp hmem)
    unfold construct
    rw [if_neg (by omega), if_neg (by omega), if_neg (by omega)]
    simp only [hM, hts]
    rw [if_neg hne]

/-- Witness for C1: a concrete successful construction stores
`ttr = [0, 1, 2]`, and a concrete irregular input is rejected with the
equal-spacing `ValueError`. -/
theorem C1_ttr_contiguous_witness :
    (DataHandler.mk [[1],[2],[3]] [] [] [0,1,2] [] [] 3 5 2).ttr =
      (List.range 3).map (fun i : ℕ => (i : ℚ))
    ∧ construct false [[1],[2],[3]] [5,8,9] [] [] [] [] =
      .error (.valueError "Training indexes are not equally spaced and cannot be rounded to get equal spacing") :=
  ⟨(C1_ttr_contiguous false [[1],[2],[3]] [] [] [5,7,9] [] []).1 _ (by decide),
   (C1_ttr_contiguous false [[1],[2],[3]] [] [] [5,8,9] [] []).2 rfl rfl rfl 3 (by decide) 3
     (by decide) ⟨0, by decide, by decide⟩⟩

/-- Claim C7: whenever a split's state matrix and time vector have
different first-dimension lengths, construction fails with an
`AssertionError` (the length assertions precede all normalization and
time processing in `construct`, so no later step is reached). -/
theorem C7_length_mismatch_assert (nz : Bool) (Xtr Xva Xte : List (List ℚ))
    (ttr tva tte : List ℚ)
    (h : Xtr.length ≠ ttr.length ∨ Xva.length ≠ tva.length ∨ Xte.length ≠ tte.length) :
    isAssertB (construct nz Xtr ttr Xva tva Xte tte) = true := by
  unfold construct
  rcases h with h | h | h <;>
    split <;> first | rfl | (exfalso; omega) | (split <;> first | rfl | (exfalso; omega))

/-- Witness for C7: a one-row training matrix with an empty training time
vector is rejected by an assertion. -/
theorem C7_length_mismatch_assert_witness :
    isAssertB (construct true [[1]] [] [] [] [] []) = true :=
  C7_length_mismatch_assert true [[1]] [] [] [] [] [] (Or.inl (by decide))

/-- Counterexample to claim C10 as stated: a training input with exactly
one sample whose single row is empty fails earlier, with the torch
`RuntimeError` from taking the maximum of an element-free tensor, not
with the claimed `ValueError`. -/
theorem C10_single_sample_cex :
    construct false [[]] [(0:ℚ)] [] [] [] [] =
      .error (.runtimeError "max(): Expected reduction dim to be specified for input.numel() == 0") := by
  decide

/-- Claim C10 (amended): for every training input with exactly one sample
whose state row has at least one entry (and optional splits of matching
lengths), construction raises the `ValueError` coming from taking the
maximum of the empty spacing-frequency table, not the descriptive
equal-spacing validation error. -/
theorem C10_single_sample_amended (nz : Bool) (row : List ℚ) (t : ℚ)
    (Xva Xte : List (List ℚ)) (tva tte : List ℚ)
    (hrow : row ≠ []) (h2 : Xva.length = tva.length) (h3 : Xte.length = tte.length) :
    construct nz [row] [t] Xva tva Xte tte =
      .error (.valueError "max() arg is an empty sequence") := by
  obtain ⟨a, as, rfl⟩ : ∃ a as, row = a :: as := by
    cases row with
    | nil => exact absurd rfl hrow
    | cons a as => exact ⟨a, as, rfl⟩
  have hM : (maxAbs? [a :: as]).isSome := by
    simp [maxAbs?, absElems]
  obtain ⟨M, hM⟩ := Option.isSome_iff_exists.mp hM
  have hts : tscaleOf [t] = none := rfl
  unfold construct
  rw [if_neg (by simp), if_neg (by omega), if_neg (by omega)]
  simp only [hM, hts]

/-- Witness for C10 (amended): one training sample with one state entry
hits the empty-`max` `ValueError`. -/
theorem C10_single_sample_witness :
    construct false [[7]] [(4:ℚ)] [] [] [] [] =
      .error (.valueError "max() arg is an empty sequence") :=
  C10_single_sample_amended false [7] 4 [] [] [] [] (by decide) rfl rfl

/-- Claim C8: the success or failure of construction does not depend on
the values of the validation and test time vectors, only on their
lengths; on success those vectors are merely shifted by the training
offset and scaled by the training time unit (no rounding, no spacing
validation). -/
theorem C8_va_te_values_unconstrained (nz : Bool) (Xtr Xva Xte : List (List ℚ))
    (ttr tva tva' tte tte' : List ℚ)
    (hva : tva.length = tva'.length) (hte : tte.length = tte'.length) :
    isOkB (construct nz Xtr ttr Xva tva Xte tte) =
      isOkB (construct nz Xtr ttr Xva tva' Xte tte')
    ∧ (∀ d : DataHandler, construct nz Xtr ttr Xva tva Xte tte = .ok d →
        d.tva = scaleL (shiftL tva d.tshift) d.tscale
        ∧ d.tte = scaleL (shiftL tte d.tshift) d.tscale) := by
  constructor
  · cases hok : construct nz Xtr ttr Xva tva Xte tte with
    | ok d =>
      obtain ⟨M, t0, rest, ts, h1, h2, h3, hM, hteq, hts, hsp, _⟩ := construct_ok_inv hok
      subst hteq
      rw [@construct_ok_intro nz Xtr Xva Xte t0 rest tva' tte' M ts h1 (by omega) (by omega)
        hM hts hsp]
      rfl
    | error e =>
      cases hok' : construct nz Xtr ttr Xva tva' Xte tte' with
      | error e' => rfl
      | ok d' =>
        obtain ⟨M, t0, rest, ts, h1, h2, h3, hM, hteq, hts, hsp, _⟩ := construct_ok_inv hok'
        subst hteq
        have hfirst := @construct_ok_intro nz Xtr Xva Xte t0 rest tva tte M ts h1 (by omega)
          (by omega) hM hts hsp
        rw [hfirst] at hok
        exact absurd hok (by simp)
  · intro d h
    obtain ⟨M, t0, rest, ts, _, _, _, _, hteq, _, _, hd⟩ := construct_ok_inv h
    subst hd
    exact ⟨rfl, rfl⟩

/-- Witness for C8: two constructions differing only in the values of a
one-entry validation time vector have the same success status, and the
stored validation vector is the shifted and scaled input. -/
theorem C8_va_te_values_unconstrained_witness :
    isOkB (construct false [[1],[2]] [0,1] [[1]] [100] [] []) =
      isOkB (construct false [[1],[2]] [0,1] [[1]] [-7] [] [])
    ∧ (DataHandler.mk [[1],[2]] [[1]] [] [0,1] [100] [] 2 0 1).tva =
        scaleL (shiftL [100] (0:ℚ)) 1 :=
  ⟨(C8_va_te_values_unconstrained false [[1],[2]] [[1]] [] [0,1] [100] [-7] [] [] rfl rfl).1,
   (((C8_va_te_values_unconstrained false [[1],[2]] [[1]] [] [0,1] [100] [-7] [] [] rfl rfl).2)
      _ (by decide)).1⟩

lemma mem_foldl_firstOcc (l : List ℚ) :
    ∀ (acc : List ℚ) (x : ℚ),
      x ∈ l.foldl (fun acc d => if d ∈ acc then acc else acc ++ [d]) acc ↔ x ∈ acc ∨ x ∈ l := by
  induction l with
  | nil => intro acc x; simp
  | cons a l ih =>
    intro acc x
    simp only [List.foldl_cons]
    by_cases h : a ∈ acc
    · rw [if_pos h, ih]
      constructor
      · rintro (h1 | h1)
        · exact Or.inl h1
        · exact Or.inr (List.mem_cons_of_mem _ h1)
      · rintro (h1 | h1)
        · exact Or.inl h1
        · rcases List.mem_cons.mp h1 with rfl | h1
          · exact Or.inl h
          · exact Or.inr h1
    · rw [if_neg h, ih]
      simp only [List.mem_append, List.mem_singleton, List.mem_cons]
      tauto

lemma mem_firstOccKeys (l : List ℚ) (x : ℚ) : x ∈ firstOccKeys l ↔ x ∈ l := by
  rw [firstOccKeys, mem_foldl_firstOcc]
  simp

lemma foldl_argmax_spec (l : List ℚ) :
    ∀ (ks : List ℚ) (k : ℚ),
      (ks.foldl (fun best d => if l.count best < l.count d then d else best) k) ∈ (k :: ks)
      ∧ ∀ x ∈ k :: ks,
          l.count x ≤ l.count (ks.foldl (fun best d => if l.count best < l.count d then d else best) k) := by
  intro ks
  induction ks with
  | nil =>
    intro k
    refine ⟨List.mem_cons_self _ _, ?_⟩
    intro x hx
    rcases List.mem_cons.mp hx with rfl | hx
    · exact le_refl _
    · simp at hx
  | cons b ks ih =>
    intro k
    simp only [List.foldl_cons]
    by_cases h : l.count k < l.count b
    · rw [if_pos h]
      obtain ⟨hmem, hmax⟩ := ih b
      refine ⟨List.mem_cons_of_mem _ hmem, ?_⟩
      intro x hx
      rcases List.mem_cons.mp hx with rfl | hx
      · exact le_trans (le_of_lt h) (hmax b (List.mem_cons_self _ _))
      · exact hmax x hx
    · rw [if_neg h]
      obtain ⟨hmem, hmax⟩ := ih k
      refine ⟨?_, ?_⟩
      · rcases List.mem_cons.mp hmem with hk | hk
        · rw [hk]; exact List.mem_cons_self _ _
        · exact List.mem_cons_of_mem _ (List.mem_cons_of_mem _ hk)
      · intro x hx
        rcases List.mem_cons.mp hx with rfl | hx
        · exact hmax x (List.mem_cons_self _ _)
        · rcases List.mem_cons.mp hx with rfl | hx
          · exact le_trans (not_lt.mp h) (hmax k (List.mem_cons_self _ _))
          · exact hmax x (List.mem_cons_of_mem _ hx)

lemma argmaxByCount_spec (l : List ℚ) (hne : l ≠ []) :
    ∃ m, argmaxByCount l = some m ∧ m ∈ l ∧ ∀ x ∈ l, l.count x ≤ l.count m := by
  have hkeys : firstOccKeys l ≠ [] := by
    obtain ⟨a, as, rfl⟩ := List.exists_cons_of_ne_nil hne
    intro hk
    have ha : a ∈ firstOccKeys (a :: as) :=
      (mem_firstOccKeys _ _).mpr (List.mem_cons_self _ _)
    rw [hk] at ha
    simp at ha
  obtain ⟨k, ks, hkks⟩ := List.exists_cons_of_ne_nil hkeys
  unfold argmaxByCount
  rw [hkks]
  obtain ⟨hmem, hmax⟩ := foldl_argmax_spec l ks k
  refine ⟨_, rfl, ?_, ?_⟩
  · exact (mem_firstOccKeys _ _).mp (hkks ▸ hmem)
  · intro x hx
    exact hmax x (hkks ▸ (mem_firstOccKeys _ _).mpr hx)

/-- Claim C6: for every training time vector with at least two samples,
`tscale` is defined and is a most frequently occurring difference between
consecutive shifted training time values: it occurs among the
consecutive differences and no difference has a strictly greater
occurrence count. -/
theorem C6_tscale_most_frequent (ttr : List ℚ) (h : 2 ≤ ttr.length) :
    ∃ m, tscaleOf ttr = some m ∧ m ∈ diffs (shiftedTtr ttr) ∧
      ∀ x ∈ diffs (shiftedTtr ttr),
        (diffs (shiftedTtr ttr)).count x ≤ (diffs (shiftedTtr ttr)).count m := by
  apply argmaxByCount_spec
  have hlen : (diffs (shiftedTtr ttr)).length = ttr.length - 1 := by
    simp [diffs, List.length_zipWith, shiftedTtr, shiftL]
  intro hnil
  rw [hnil] at hlen
  simp at hlen
  omega

/-- Witness for C6: for training times `[5, 7, 9]` the spacing `2` is
selected and is of maximal count among the consecutive differences. -/
theorem C6_tscale_most_frequent_witness :
    ∃ m, tscaleOf [5,7,9] = some m ∧ m ∈ diffs (shiftedTtr [5,7,9]) ∧
      ∀ x ∈ diffs (shiftedTtr [5,7,9]),
        (diffs (shiftedTtr [5,7,9])).count x ≤ (diffs (shiftedTtr [5,7,9])).count m :=
  C6_tscale_most_frequent [5,7,9] (by decide)

lemma le_foldl_max (l : List ℚ) :
    ∀ a : ℚ, a ≤ l.foldl max a ∧ ∀ x ∈ l, x ≤ l.foldl max a := by
  induction l with
  | nil => intro a; exact ⟨le_refl _, by intro x hx; simp at hx⟩
  | cons b l ih =>
    intro a
    simp only [List.foldl_cons]
    refine ⟨le_trans (le_max_left a b) (ih (max a b)).1, ?_⟩
    intro x hx
    rcases List.mem_cons.mp hx with rfl | hx
    · exact le_trans (le_max_right a x) (ih (max a x)).1
    · exact (ih (max a b)).2 x hx

lemma foldl_max_div (M : ℚ) (hM : 0 ≤ M) :
    ∀ (l : List ℚ) (a : ℚ),
      (l.map (fun x => x / M)).foldl max (a / M) = (l.foldl max a) / M := by
  intro l
  induction l with
  | nil => intro a; rfl
  | cons b l ih =>
    intro a
    simp only [List.map_cons, List.foldl_cons]
    rw [max_div_div_right hM, ih]

lemma absElems_scaleX (X : List (List ℚ)) (M : ℚ) (hM : 0 < M) :
    absElems (scaleX X M) = (absElems X).map (fun x => x / M) := by
  simp only [absElems, scaleX]
  rw [← List.map_flatten, List.map_map, List.map_map]
  refine List.map_congr_left ?_
  intro x _
  simp only [Function.comp_def]
  rw [abs_div, abs_of_pos hM]

lemma maxAbs?_scaleX_self {X : List (List ℚ)} {M : ℚ}
    (hmx : maxAbs? X = some M) (hM : 0 < M) :
    maxAbs? (scaleX X M) = some 1 := by
  unfold maxAbs? at hmx ⊢
  rw [absElems_scaleX X M hM]
  cases habs : absElems X with
  | nil => rw [habs] at hmx; simp [List.max?] at hmx
  | cons a as =>
    rw [habs] at hmx
    have hfold : as.foldl max a = M := by
      have := hmx
      rw [List.max?_cons'] at this
      exact Option.some.inj this
    rw [List.map_cons, List.max?_cons', foldl_max_div M (le_of_lt hM), hfold,
      div_self (ne_of_gt hM)]

/-- Counterexample to claim C3 as stated: with normalization enabled,
construction succeeds on the all-zero training matrix `[[0],[0]]`, yet
the stored training matrix has maximum absolute value `0`, not `1` (the
scale factor is zero, so normalization cannot produce a unit maximum). -/
theorem C3_normalized_max_cex :
    storedXtrMaxAbs? (construct true [[0],[0]] [0,1] [] [] [] []) = some 0 ∧ (0:ℚ) ≠ 1 := by
  decide

/-- Claim C3 (amended): if normalization is enabled and the training
matrix has at least one nonzero entry, then after successful construction
the maximum absolute value of the stored training matrix equals 1. -/
theorem C3_normalized_max_amended (Xtr Xva Xte : List (List ℚ)) (ttr tva tte : List ℚ)
    (d : DataHandler) (h : construct true Xtr ttr Xva tva Xte tte = .ok d)
    (hx : ∃ x ∈ Xtr.flatten, x ≠ 0) :
    maxAbs? d.Xtr = some 1 := by
  obtain ⟨M, t0, rest, ts, _, _, _, hM, _, _, _, hd⟩ := construct_ok_inv h
  subst hd
  show maxAbs? (scaleX Xtr M) = some 1
  obtain ⟨x, hxmem, hxne⟩ := hx
  have habs : |x| ∈ absElems Xtr := List.mem_map_of_mem _ hxmem
  have hMx : |x| ≤ M := by
    unfold maxAbs? at hM
    cases habs2 : absElems Xtr with
    | nil => rw [habs2] at habs; simp at habs
    | cons a as =>
      rw [habs2] at hM habs
      rw [List.max?_cons'] at hM
      have hfold := Option.some.inj hM
      rcases List.mem_cons.mp habs with heq | hmem
      · rw [← hfold, heq]; exact (le_foldl_max as a).1
      · rw [← hfold]; exact (le_foldl_max as a).2 _ hmem
  have hMpos : 0 < M := lt_of_lt_of_le (abs_pos.mpr hxne) hMx
  exact maxAbs?_scaleX_self hM hMpos

/-- Witness for C3 (amended): normalizing the training matrix
`[[1],[2]]` stores `[[1/2],[1]]`, whose maximum absolute value is 1. -/
theorem C3_normalized_max_witness :
    maxAbs? (DataHandler.mk [[1/2],[1]] [] [] [0,1] [] [] 2 0 1).Xtr = some 1 :=
  C3_normalized_max_amended [[1],[2]] [] [] [0,1] [] [] _ (by decide)
    ⟨1, by decide, by decide⟩

lemma anaeEntry_nonzero {r : ℚ} (n : ℚ) (hr : r ≠ 0) :
    anaeEntry r n = EVal.fin (|r - n| / |r|) := by
  rw [anaeEntry, if_neg hr]

lemma anae_filter_eq :
    ∀ (ref new : List ℚ), (∀ p ∈ List.zip ref new, p.1 = 0 → p.2 ≠ 0) →
      (List.zipWith anaeEntry ref new).filter (fun e => e ≠ EVal.inf) =
        ((List.zip ref new).filter (fun p => p.1 ≠ 0)).map
          (fun p => EVal.fin (|p.1 - p.2| / |p.1|)) := by
  intro ref
  induction ref with
  | nil => intro new _; rfl
  | cons r rs ih =>
    intro new hz
    cases new with
    | nil => rfl
    | cons n ns =>
      have htail := fun p hp => hz p (List.mem_cons_of_mem _ hp)
      by_cases hr : r = 0
      · have hn : n ≠ 0 := hz (r, n) (List.mem_cons_self _ _) hr
        have hent : anaeEntry r n = EVal.inf := by rw [anaeEntry, if_pos hr, if_neg hn]
        subst hr
        simp only [List.zip_cons_cons, List.zipWith_cons_cons, List.filter_cons, hent]
        rw [if_neg (by simp), if_neg (by simp)]
        exact ih ns htail
      · have hent := anaeEntry_nonzero n hr
        simp only [List.zip_cons_cons, List.zipWith_cons_cons, List.filter_cons, hent]
        rw [if_pos (by simp), if_pos (by simp [hr])]
        rw [List.map_cons]
        exact congrArg _ (ih ns htail)

lemma meanE_map_fin (l : List ℚ) :
    meanE (l.map EVal.fin) = if l.isEmpty then EVal.nan else EVal.fin (l.sum / l.length) := by
  cases l with
  | nil => rfl
  | cons a l =>
    unfold meanE
    have hnan : EVal.nan ∉ (a :: l).map EVal.fin := by simp
    have hinf : EVal.inf ∉ (a :: l).map EVal.fin := by simp
    rw [if_neg (by simp), if_neg hnan, if_neg hinf, if_neg (by simp)]
    simp [List.map_map, finVal, Function.comp_def]

/-- Counterexample to claim C2 as stated: for `ref = [1, 0]` and
`new = [1, 0]` the `0/0` entry produces NaN, which is not equal to
infinity and is therefore kept, so `anae` returns NaN while the mean over
the nonzero-reference positions is 0. -/
theorem C2_anae_zero_excluded_cex : anae [1, 0] [1, 0] ≠ anaeSpecC2 [1, 0] [1, 0] := by
  decide

/-- Claim C2 (amended): for same-shape tensors such that at every
position where the reference is zero the new value is nonzero, `anae`
equals 100 times the mean of the normalized absolute deviations over
exactly the positions with nonzero reference (zero-reference positions
produce infinite ratios and are excluded). -/
theorem C2_anae_zero_excluded_amended (ref new : List ℚ)
    (hlen : ref.length = new.length)
    (hz : ∀ p ∈ List.zip ref new, p.1 = 0 → p.2 ≠ 0) :
    anae ref new = anaeSpecC2 ref new := by
  unfold anae anaeSpecC2
  rw [anae_filter_eq ref new hz]
  rw [show ((List.zip ref new).filter (fun p => p.1 ≠ 0)).map
        (fun p => EVal.fin (|p.1 - p.2| / |p.1|)) =
      (((List.zip ref new).filter (fun p => p.1 ≠ 0)).map
        (fun p => |p.1 - p.2| / |p.1|)).map EVal.fin from (List.map_map _ _ _).symm]
  rw [meanE_map_fin]
  by_cases h : ((List.zip ref new).filter (fun p => p.1 ≠ 0)).isEmpty
  · rw [if_pos (by simpa using h), if_pos h]
    rfl
  · rw [if_neg (by simpa using h), if_neg h]
    simp [mulE, mul_div_assoc]

/-- Witness for C2 (amended): `ref = [1, 0]`, `new = [1, 2]` satisfies
the amended hypothesis and both sides agree. -/
theorem C2_anae_zero_excluded_witness : anae [1, 0] [1, 2] = anaeSpecC2 [1, 0] [1, 2] :=
  C2_anae_zero_excluded_amended [1, 0] [1, 2] rfl (by decide)

/-- Claim C4: on the documented example tensors (rows concatenated in
row-major order), ANAE rounded to one decimal is 10.0 percent and NAAE
rounded to one decimal is 5.0 percent. -/
theorem C4_example_values :
    round1? (anae [-1/10, 2/10, 0, 100, 200, 300]
                  [-11/100, 15/100, 1/100, 105, 210, 285]) = some 10
    ∧ round1? (_naae [-1/10, 2/10, 0, 100, 200, 300]
                  [-11/100, 15/100, 1/100, 105, 210, 285]) = some 5 := by
  decide

lemma zipWith_anae_self :
    ∀ (X : List ℚ), (∀ q ∈ X, q ≠ 0) →
      List.zipWith anaeEntry X X = X.map (fun _ => EVal.fin 0) := by
  intro X
  induction X with
  | nil => intro _; rfl
  | cons a l ih =>
    intro hz
    have ha : a ≠ 0 := hz a (List.mem_cons_self _ _)
    simp only [List.zipWith_cons_cons, List.map_cons]
    rw [anaeEntry_nonzero a ha, sub_self, abs_zero, zero_div]
    rw [ih (fun q hq => hz q (List.mem_cons_of_mem _ hq))]

/-- Counterexample to claim C5 as stated: for the empty tensor the
positions with nonzero reference (there are none) are exactly the ones
averaged, yet `anae` of the empty tensor against itself is the NaN mean
of an empty tensor, not 0. -/
theorem C5_anae_self_cex :
    (∀ q ∈ ([] : List ℚ), q ≠ 0) ∧ anae ([] : List ℚ) [] ≠ EVal.fin 0 := by
  decide

/-- Claim C5 (amended): for every nonempty tensor all of whose entries
are nonzero (so that the averaged positions are exactly the
nonzero-reference positions), the ANAE of the tensor against itself is
exactly 0. -/
theorem C5_anae_self_amended (X : List ℚ) (hne : X ≠ []) (hz : ∀ q ∈ X, q ≠ 0) :
    anae X X = EVal.fin 0 := by
  unfold anae
  rw [zipWith_anae_self X hz]
  rw [show X.map (fun _ => EVal.fin 0) = (X.map (fun _ => (0:ℚ))).map EVal.fin from
    (List.map_map _ _ _).symm]
  rw [List.filter_eq_self.mpr (by intro e he; simp at he; simp [he])]
  rw [meanE_map_fin]
  rw [if_neg (by simp [hne])]
  have hsum : (X.map (fun _ => (0:ℚ))).sum = 0 := by
    induction X with
    | nil => rfl
    | cons a l ih => simpa using ih
  rw [hsum, zero_div]
  show EVal.fin (100 * 0) = EVal.fin 0
  rw [mul_zero]

/-- Witness for C5 (amended): a concrete all-nonzero tensor has ANAE 0
against itself. -/
theorem C5_anae_self_witness : anae [2, 3] [2, 3] = EVal.fin 0 :=
  C5_anae_self_amended [2, 3] (by decide) (by decide)

lemma mem_zipWith_of_mem_zip {f : ℚ → ℚ → EVal} :
    ∀ {l1 l2 : List ℚ} {p : ℚ × ℚ}, p ∈ List.zip l1 l2 →
      f p.1 p.2 ∈ List.zipWith f l1 l2 := by
  intro l1
  induction l1 with
  | nil => intro l2 p h; simp [List.zip] at h
  | cons a l ih =>
    intro l2 p h
    cases l2 with
    | nil => simp [List.zip] at h
    | cons b l2 =>
      rcases List.mem_cons.mp h with rfl | h
      · exact List.mem_cons_self _ _
      · exact List.mem_cons_of_mem _ (ih h)

/-- Claim C9: whenever some position holds reference 0 and new value 0,
the `0/0` entry is NaN; NaN is not equal to infinity, survives the
filter, and makes `anae` return NaN. -/
theorem C9_nan_propagation (ref new : List ℚ)
    (h : ((0:ℚ), (0:ℚ)) ∈ List.zip ref new) :
    anae ref new = EVal.nan := by
  have hent : anaeEntry 0 0 = EVal.nan := by rw [anaeEntry, if_pos rfl, if_pos rfl]
  have hmem : EVal.nan ∈ List.zipWith anaeEntry ref new := by
    have := mem_zipWith_of_mem_zip (f := anaeEntry) h
    rwa [hent] at this
  have hmemf : EVal.nan ∈ (List.zipWith anaeEntry ref new).filter (fun e => e ≠ EVal.inf) :=
    List.mem_filter.mpr ⟨hmem, by simp⟩
  unfold anae meanE
  rw [if_neg (by simp only [List.isEmpty_iff]; exact List.ne_nil_of_mem hmemf), if_pos hmemf]
  rfl

/-- Witness for C9: the one-entry tensors `[0]` and `[0]` give NaN. -/
theorem C9_nan_propagation_witness : anae [0] [0] = EVal.nan :=
  C9_nan_propagation [0] [0] (by decide)
